import Mathlib

/-!
Verification of the Chesster move-selection engine (src/ML) against its
natural-language specification.

The development shallowly embeds:
* `Agent.get_move`, `Agent._alpha_beta`, `Agent._evaluate_position` and
  `Agent._order_moves` from `src/ML/agent.py`;
* `ModelCache` (`__init__`, `get`, `put`, `contains`, `preload`) from
  `src/ML/model_cache.py`;
* `StateEncoder.encode_board` / `decode_board` from `src/ML/state_encoder.py`.

Chess positions reached by the search are modelled as finitely deep game
trees (`GT`): each node carries the observations the agent code makes
through the `python-chess` rules engine (side to move, game-over /
checkmate / stalemate / insufficient-material / in-check flags, the scalar
neural-network output for the encoded position) together with the list of
legal moves, each move paired with the node it leads to.  Scores are
modelled as `WithBot (WithTop ℤ)`: `⊥` is `float('-inf')`, `⊤` is
`float('inf')`, and finite scores are integers (only the linear order on
scores is ever used by the agent code).
-/

namespace Chesster

/-- Score domain: `⊥` = `float('-inf')`, `⊤` = `float('inf')`, finite values. -/
abbrev Score := WithBot (WithTop ℤ)

/-- A finite score (the value a neural-network evaluation takes). -/
def finS (z : ℤ) : Score := ((z : WithTop ℤ) : Score)

/-- Chess piece types, as in the `python-chess` constants used by `agent.py`. -/
inductive PieceType where
  | pawn | knight | bishop | rook | queen | king
deriving DecidableEq, Repr

/-- The `piece_values` dict in `Agent._order_moves`:
P=1, N=3, B=3, R=5, Q=9, K=0. -/
def pieceValue : PieceType → ℤ
  | .pawn => 1
  | .knight => 3
  | .bishop => 3
  | .rook => 5
  | .queen => 9
  | .king => 0

/-- Observations `Agent._order_moves` makes about one legal move of a position.
`id` identifies the move (its UCI string); `isCapture` is
`board.is_capture(move)`; `pieceAtTo` is the type of the piece sitting on
`move.to_square` (`board.piece_at(move.to_square)`); `promotion` is the truth
of `move.promotion`.  `captured` is the piece the move actually captures (if
any); the agent code never reads it — it differs from `pieceAtTo` exactly for
en-passant captures, where the captured pawn is not on the destination
square — but the specification's description of the capture bonus refers
to it. -/
structure MoveInfo where
  id : ℕ
  isCapture : Bool
  pieceAtTo : Option PieceType
  promotion : Bool
  captured : Option PieceType
deriving DecidableEq, Repr

/-- Game tree of positions as observed by the agent: per node the side to
move (`true` = White, as `chess.WHITE = True`), the rules-engine flags
`is_game_over` / `is_checkmate` / `is_stalemate` / `is_insufficient_material`
/ `is_check`, the scalar output of the evaluation model on the encoded
position, and the legal moves paired with the positions they lead to. -/
inductive GT where
  | node (turn : Bool) (over : Bool) (mate : Bool) (stalemate : Bool)
      (insufficient : Bool) (check : Bool) (nn : ℤ)
      (children : List (MoveInfo × GT))

def GT.turn : GT → Bool
  | .node t _ _ _ _ _ _ _ => t

def GT.over : GT → Bool
  | .node _ o _ _ _ _ _ _ => o

def GT.mate : GT → Bool
  | .node _ _ m _ _ _ _ _ => m

def GT.stalemate : GT → Bool
  | .node _ _ _ s _ _ _ _ => s

def GT.insufficient : GT → Bool
  | .node _ _ _ _ i _ _ _ => i

def GT.check : GT → Bool
  | .node _ _ _ _ _ c _ _ => c

def GT.nn : GT → ℤ
  | .node _ _ _ _ _ _ n _ => n

def GT.children : GT → List (MoveInfo × GT)
  | .node _ _ _ _ _ _ _ cs => cs

/-- The `score` computed by `move_priority` inside `Agent._order_moves`:
capture bonus from the piece on the destination square (×10), +50 if the
position after the move is check (the code pushes the move, reads
`board.is_check()`, pops), +100 for a promotion. -/
def movePriorityScore (m : MoveInfo) (child : GT) : ℤ :=
  (if m.isCapture then
    (match m.pieceAtTo with
      | some pt => pieceValue pt * 10
      | none => 0)
  else 0)
  + (if child.check then 50 else 0)
  + (if m.promotion then 100 else 0)

/-- `move_priority` returns `-score` (Python sorts ascending by key). -/
def moveKey (c : MoveInfo × GT) : ℤ := -(movePriorityScore c.1 c.2)

/-- The key order used by `Agent._order_moves`. -/
def moveLE (a b : MoveInfo × GT) : Prop := moveKey a ≤ moveKey b

instance : DecidableRel moveLE :=
  fun a b => inferInstanceAs (Decidable (moveKey a ≤ moveKey b))

instance : IsTotal (MoveInfo × GT) moveLE := ⟨fun a b => le_total (moveKey a) (moveKey b)⟩

instance : IsTrans (MoveInfo × GT) moveLE := ⟨fun _ _ _ h h' => le_trans h h'⟩

/-- `Agent._order_moves`: Python's `sorted` with key `move_priority`, i.e.
the stable sort of the legal moves ascending by `-score`.  A stable
ascending sort by a total preorder has a unique result, here realised by
insertion sort (`insertionSort` with `≤` on keys is stable: an element is
inserted before the first strictly greater key, hence after earlier ties). -/
def orderMoves (cs : List (MoveInfo × GT)) : List (MoveInfo × GT) :=
  List.insertionSort moveLE cs

/-- `Agent._evaluate_position`: checkmate gives the extreme score against
the side to move, stalemate / insufficient material give 0, anything else
is the model's scalar output on the encoded position, unchanged. -/
def evaluatePosition (t : GT) : Score :=
  if t.mate then (if t.turn then ⊥ else ⊤)
  else if t.stalemate || t.insufficient then finS 0
  else finS t.nn

/-- The `if not legal_moves` branch of `Agent._alpha_beta`: checkmate gives
the extreme score against the `maximizing` flag, otherwise 0. -/
def noMovesValue (t : GT) (maximizing : Bool) : Score :=
  if t.mate then (if maximizing then ⊥ else ⊤) else finS 0

/-- The maximizing loop of `Agent._alpha_beta`: fold over the ordered moves
carrying `max_eval` and `alpha`, breaking on `beta <= alpha`.  The recursive
one-ply-deeper search is abstracted as `f child alpha beta`. -/
def abMaxLoop (f : GT → Score → Score → Score) :
    List (MoveInfo × GT) → Score → Score → Score → Score
  | [], best, _, _ => best
  | c :: cs, best, al, be =>
    if be ≤ max al (f c.2 al be) then max best (f c.2 al be)
    else abMaxLoop f cs (max best (f c.2 al be)) (max al (f c.2 al be)) be

/-- The minimizing loop of `Agent._alpha_beta`. -/
def abMinLoop (f : GT → Score → Score → Score) :
    List (MoveInfo × GT) → Score → Score → Score → Score
  | [], best, _, _ => best
  | c :: cs, best, al, be =>
    if min be (f c.2 al be) ≤ al then min best (f c.2 al be)
    else abMinLoop f cs (min best (f c.2 al be)) al (min be (f c.2 al be))

/-- `Agent._alpha_beta board depth alpha beta maximizing`.  Depth 0 or a
game-over position evaluates the leaf; an empty legal-move list takes the
checkmate/stalemate branch; otherwise the ordered moves are searched with
the maximizing or minimizing loop, each child one ply shallower with the
flag flipped. -/
def alphaBeta : ℕ → GT → Score → Score → Bool → Score
  | 0, t, _, _, _ => evaluatePosition t
  | d + 1, t, al, be, maximizing =>
    if t.over then evaluatePosition t
    else if t.children.isEmpty then noMovesValue t maximizing
    else if maximizing then
      abMaxLoop (fun c a b => alphaBeta d c a b false) (orderMoves t.children) ⊥ al be
    else
      abMinLoop (fun c a b => alphaBeta d c a b true) (orderMoves t.children) ⊤ al be

/-- The maximizing loop with the alpha-beta window removed: plain running
maximum over the children values. -/
def mmMaxLoop (g : GT → Score) : List (MoveInfo × GT) → Score → Score
  | [], best => best
  | c :: cs, best => mmMaxLoop g cs (max best (g c.2))

/-- The minimizing loop with the alpha-beta window removed. -/
def mmMinLoop (g : GT → Score) : List (MoveInfo × GT) → Score → Score
  | [], best => best
  | c :: cs, best => mmMinLoop g cs (min best (g c.2))

/-- Unpruned full minimax: `Agent._alpha_beta` with the pruning window
removed and everything else (leaf evaluation, empty-move branch, move
ordering, flag flipping) identical. -/
def minimax : ℕ → GT → Bool → Score
  | 0, t, _ => evaluatePosition t
  | d + 1, t, maximizing =>
    if t.over then evaluatePosition t
    else if t.children.isEmpty then noMovesValue t maximizing
    else if maximizing then
      mmMaxLoop (fun c => minimax d c false) (orderMoves t.children) ⊥
    else
      mmMinLoop (fun c => minimax d c true) (orderMoves t.children) ⊤

/-- The root loop of `Agent.get_move`: for each ordered move the child is
searched with the flag `not board.turn` read *after* the push (so the flag
is the negation of the child's side to move), and `best_move`/`best_value`
and `alpha` (White) or `beta` (Black) are updated; the root never breaks. -/
def rootLoopAB (turn : Bool) (f : GT → Score → Score → Bool → Score) :
    List (MoveInfo × GT) → Option ℕ → Score → Score → Score → Option ℕ × Score
  | [], bm, bv, _, _ => (bm, bv)
  | c :: cs, bm, bv, al, be =>
    let v := f c.2 al be (!c.2.turn)
    if turn then
      if bv < v then rootLoopAB turn f cs (some c.1.id) v (max al v) be
      else rootLoopAB turn f cs bm bv (max al v) be
    else
      if v < bv then rootLoopAB turn f cs (some c.1.id) v al (min be v)
      else rootLoopAB turn f cs bm bv al (min be v)

/-- The root loop of `Agent.get_move` with pruning removed: each child is
scored by unpruned minimax (same mis-negated flag), same strict update. -/
def rootLoopMM (turn : Bool) (g : GT → Bool → Score) :
    List (MoveInfo × GT) → Option ℕ → Score → Option ℕ × Score
  | [], bm, bv => (bm, bv)
  | c :: cs, bm, bv =>
    let v := g c.2 (!c.2.turn)
    if turn then
      if bv < v then rootLoopMM turn g cs (some c.1.id) v
      else rootLoopMM turn g cs bm bv
    else
      if v < bv then rootLoopMM turn g cs (some c.1.id) v
      else rootLoopMM turn g cs bm bv

/-- The `(best_move, best_value)` pair computed by `Agent.get_move`'s search
loop at depth `d` (children searched at `depth - 1`). -/
def searchRootAB (t : GT) (d : ℕ) : Option ℕ × Score :=
  rootLoopAB t.turn (fun c a b m => alphaBeta (d - 1) c a b m)
    (orderMoves t.children) none (if t.turn then ⊥ else ⊤) ⊥ ⊤

/-- The same root computation driven by unpruned minimax. -/
def searchRootMM (t : GT) (d : ℕ) : Option ℕ × Score :=
  rootLoopMM t.turn (fun c m => minimax (d - 1) c m)
    (orderMoves t.children) none (if t.turn then ⊥ else ⊤)

/-- `Agent.get_move`: raises on a game-over position or an empty move list,
returns the single legal move immediately, otherwise runs the root loop. -/
def getMove (t : GT) (d : ℕ) : Except Unit (Option ℕ) :=
  if t.over then .error ()
  else
    match t.children with
    | [] => .error ()
    | [c] => .ok (some c.1.id)
    | _ :: _ :: _ => .ok (searchRootAB t d).1

/-- `Agent.get_move` with the search replaced by unpruned minimax. -/
def getMoveMM (t : GT) (d : ℕ) : Except Unit (Option ℕ) :=
  if t.over then .error ()
  else
    match t.children with
    | [] => .error ()
    | [c] => .ok (some c.1.id)
    | _ :: _ :: _ => .ok (searchRootMM t d).1

/-! ### Alpha-beta pruning does not change the minimax value

The classical fail-soft bounds: a pruned search agrees with the unpruned
one inside the window and fails low/high outside it. -/

/-- Supremum of the children values, the invariant shape of `mmMaxLoop`. -/
def listSup (g : GT → Score) : List (MoveInfo × GT) → Score
  | [] => ⊥
  | c :: cs => max (g c.2) (listSup g cs)

/-- Infimum of the children values, the invariant shape of `mmMinLoop`. -/
def listInf (g : GT → Score) : List (MoveInfo × GT) → Score
  | [] => ⊤
  | c :: cs => min (g c.2) (listInf g cs)

theorem le_mmMaxLoop (g : GT → Score) :
    ∀ (cs : List (MoveInfo × GT)) (b : Score), b ≤ mmMaxLoop g cs b
  | [], _ => le_refl _
  | c :: cs, b => le_trans (le_max_left b (g c.2)) (le_mmMaxLoop g cs _)

theorem mmMinLoop_le (g : GT → Score) :
    ∀ (cs : List (MoveInfo × GT)) (b : Score), mmMinLoop g cs b ≤ b
  | [], _ => le_refl _
  | c :: cs, b => le_trans (mmMinLoop_le g cs _) (min_le_left b (g c.2))

theorem mmMaxLoop_eq_max (g : GT → Score) :
    ∀ (cs : List (MoveInfo × GT)) (b : Score),
      mmMaxLoop g cs b = max b (listSup g cs)
  | [], b => (max_eq_left bot_le).symm
  | c :: cs, b => by
    show mmMaxLoop g cs (max b (g c.2)) = max b (listSup g (c :: cs))
    rw [mmMaxLoop_eq_max g cs]
    show max (max b (g c.2)) (listSup g cs) = max b (max (g c.2) (listSup g cs))
    exact max_assoc b (g c.2) (listSup g cs)

theorem mmMinLoop_eq_min (g : GT → Score) :
    ∀ (cs : List (MoveInfo × GT)) (b : Score),
      mmMinLoop g cs b = min b (listInf g cs)
  | [], b => (min_eq_left le_top).symm
  | c :: cs, b => by
    show mmMinLoop g cs (min b (g c.2)) = min b (listInf g (c :: cs))
    rw [mmMinLoop_eq_min g cs]
    show min (min b (g c.2)) (listInf g cs) = min b (min (g c.2) (listInf g cs))
    exact min_assoc b (g c.2) (listInf g cs)

theorem le_abMaxLoop (f : GT → Score → Score → Score) :
    ∀ (cs : List (MoveInfo × GT)) (best al be : Score),
      best ≤ abMaxLoop f cs best al be
  | [], _, _, _ => le_refl _
  | c :: cs, best, al, be => by
    show best ≤ if be ≤ max al (f c.2 al be) then max best (f c.2 al be)
      else abMaxLoop f cs (max best (f c.2 al be)) (max al (f c.2 al be)) be
    split
    · exact le_max_left _ _
    · exact le_trans (le_max_left best _) (le_abMaxLoop f cs _ _ be)

theorem abMinLoop_le (f : GT → Score → Score → Score) :
    ∀ (cs : List (MoveInfo × GT)) (best al be : Score),
      abMinLoop f cs best al be ≤ best
  | [], _, _, _ => le_refl _
  | c :: cs, best, al, be => by
    show (if min be (f c.2 al be) ≤ al then min best (f c.2 al be)
      else abMinLoop f cs (min best (f c.2 al be)) al (min be (f c.2 al be))) ≤ best
    split
    · exact min_le_left _ _
    · exact le_trans (abMinLoop_le f cs _ al _) (min_le_left best _)

/-- Fail-soft bounds for the maximizing loop: given that the child search
`f` satisfies the bounds w.r.t. the child value `g` on every window, the
loop result equals the plain running maximum whenever the latter lies
strictly inside the window, and fails low/high otherwise. -/
theorem abMaxLoop_spec (f : GT → Score → Score → Score) (g : GT → Score) :
    ∀ (cs : List (MoveInfo × GT)),
      (∀ c ∈ cs, ∀ al be : Score, al < be →
        ((al < g c.2 → g c.2 < be → f c.2 al be = g c.2) ∧
         (g c.2 ≤ al → f c.2 al be ≤ al) ∧
         (be ≤ g c.2 → be ≤ f c.2 al be))) →
      ∀ best al be : Score, al < be → best ≤ al →
        ((al < mmMaxLoop g cs best → mmMaxLoop g cs best < be →
            abMaxLoop f cs best al be = mmMaxLoop g cs best) ∧
         (mmMaxLoop g cs best ≤ al → abMaxLoop f cs best al be ≤ al) ∧
         (be ≤ mmMaxLoop g cs best → be ≤ abMaxLoop f cs best al be)) := by
  intro cs
  induction cs with
  | nil =>
    intro _ best al be _ hba
    exact ⟨fun _ _ => rfl, fun _ => hba, fun h => h⟩
  | cons c cs ih =>
    intro hf best al be hab hba
    obtain ⟨hc1, hc2, hc3⟩ := hf c (List.mem_cons_self c cs) al be hab
    have hftail := fun c' hc' => hf c' (List.mem_cons_of_mem c hc')
    have hAB : abMaxLoop f (c :: cs) best al be =
        if be ≤ max al (f c.2 al be) then max best (f c.2 al be)
        else abMaxLoop f cs (max best (f c.2 al be)) (max al (f c.2 al be)) be := rfl
    have hMM : mmMaxLoop g (c :: cs) best = mmMaxLoop g cs (max best (g c.2)) := rfl
    rw [hAB, hMM]
    by_cases hcut : be ≤ max al (f c.2 al be)
    · -- beta cutoff after this child
      rw [if_pos hcut]
      have hbv : be ≤ f c.2 al be :=
        (le_max_iff.mp hcut).resolve_left (not_le_of_lt hab)
      have hbm : be ≤ g c.2 := by
        by_contra hmb
        push_neg at hmb
        rcases le_or_lt (g c.2) al with hma | ham
        · exact absurd (le_trans hbv (hc2 hma)) (not_le_of_lt hab)
        · rw [hc1 ham hmb] at hbv
          exact absurd hbv (not_le_of_lt hmb)
      have hM : be ≤ mmMaxLoop g cs (max best (g c.2)) :=
        le_trans (le_trans hbm (le_max_right best (g c.2))) (le_mmMaxLoop g cs _)
      refine ⟨fun _ h2 => absurd hM (not_le_of_lt h2),
        fun hMa => absurd (le_trans hM hMa) (not_le_of_lt hab),
        fun _ => le_trans hbv (le_max_right best _)⟩
    · -- no cutoff: recurse over the remaining children
      rw [if_neg hcut]
      have hal2 : max al (f c.2 al be) < be := lt_of_not_le hcut
      rcases le_or_lt (g c.2) al with hma | ham
      · -- child value fails low: state only grows by a fail-low bound
        have hva : f c.2 al be ≤ al := hc2 hma
        have halv : max al (f c.2 al be) = al := max_eq_left hva
        have hb2 : max best (f c.2 al be) ≤ al := max_le hba hva
        have ih' := ih hftail (max best (f c.2 al be)) al be hab hb2
        rw [halv]
        rw [mmMaxLoop_eq_max g cs] at ih' ⊢
        have hA : max best (g c.2) ≤ al := max_le hba hma
        have hB : max best (f c.2 al be) ≤ al := hb2
        refine ⟨?_, ?_, ?_⟩
        · intro h1 h2
          have hMS : max (max best (g c.2)) (listSup g cs) = listSup g cs := by
            rcases le_total (listSup g cs) (max best (g c.2)) with h | h
            · exact absurd (lt_of_lt_of_le h1 (le_trans (le_of_eq (max_eq_left h)) hA))
                (lt_irrefl al)
            · exact max_eq_right h
          rw [hMS] at h1 h2 ⊢
          have hM'S : max (max best (f c.2 al be)) (listSup g cs) = listSup g cs :=
            max_eq_right (le_trans hB (le_of_lt h1))
          rw [← hM'S] at h1 h2 ⊢
          exact ih'.1 h1 h2
        · intro h
          have hS : listSup g cs ≤ al := le_trans (le_max_right _ _) h
          exact ih'.2.1 (max_le hB hS)
        · intro h
          have hS : be ≤ listSup g cs := by
            rcases le_total (listSup g cs) (max best (g c.2)) with h' | h'
            · exact absurd (le_trans h (le_trans (le_of_eq (max_eq_left h')) hA))
                (not_le_of_lt hab)
            · exact le_trans h (le_of_eq (max_eq_right h'))
          exact ih'.2.2 (le_trans hS (le_max_right _ _))
      · -- child value is inside the window: search returns it exactly
        have hmb : g c.2 < be := by
          by_contra hbem
          push_neg at hbem
          exact absurd (le_trans (hc3 hbem) (le_max_right al _)) hcut
        have hvm : f c.2 al be = g c.2 := hc1 ham hmb
        have halv : max al (f c.2 al be) = g c.2 := by
          rw [hvm]; exact max_eq_right (le_of_lt ham)
        have hbest2 : max best (f c.2 al be) = g c.2 := by
          rw [hvm]; exact max_eq_right (le_of_lt (lt_of_le_of_lt hba ham))
        have hbm2 : max best (g c.2) = g c.2 :=
          max_eq_right (le_of_lt (lt_of_le_of_lt hba ham))
        rw [halv, hbest2, hbm2]
        have ih' := ih hftail (g c.2) (g c.2) be hmb (le_refl _)
        refine ⟨?_, ?_, ?_⟩
        · intro _ h2
          rcases eq_or_lt_of_le (le_mmMaxLoop g cs (g c.2)) with h | h
          · exact le_antisymm (h ▸ ih'.2.1 (le_of_eq h.symm))
              (h ▸ le_abMaxLoop f cs _ _ be)
          · exact ih'.1 h h2
        · intro h
          exact absurd (lt_of_lt_of_le ham (le_trans (le_mmMaxLoop g cs _) h))
            (lt_irrefl al)
        · exact fun h => ih'.2.2 h

/-- Fail-soft bounds for the minimizing loop, dual to `abMaxLoop_spec`. -/
theorem abMinLoop_spec (f : GT → Score → Score → Score) (g : GT → Score) :
    ∀ (cs : List (MoveInfo × GT)),
      (∀ c ∈ cs, ∀ al be : Score, al < be →
        ((al < g c.2 → g c.2 < be → f c.2 al be = g c.2) ∧
         (g c.2 ≤ al → f c.2 al be ≤ al) ∧
         (be ≤ g c.2 → be ≤ f c.2 al be))) →
      ∀ best al be : Score, al < be → be ≤ best →
        ((al < mmMinLoop g cs best → mmMinLoop g cs best < be →
            abMinLoop f cs best al be = mmMinLoop g cs best) ∧
         (mmMinLoop g cs best ≤ al → abMinLoop f cs best al be ≤ al) ∧
         (be ≤ mmMinLoop g cs best → be ≤ abMinLoop f cs best al be)) := by
  intro cs
  induction cs with
  | nil =>
    intro _ best al be _ hbb
    exact ⟨fun _ _ => rfl, fun h => h, fun _ => hbb⟩
  | cons c cs ih =>
    intro hf best al be hab hbb
    obtain ⟨hc1, hc2, hc3⟩ := hf c (List.mem_cons_self c cs) al be hab
    have hftail := fun c' hc' => hf c' (List.mem_cons_of_mem c hc')
    have hAB : abMinLoop f (c :: cs) best al be =
        if min be (f c.2 al be) ≤ al then min best (f c.2 al be)
        else abMinLoop f cs (min best (f c.2 al be)) al (min be (f c.2 al be)) := rfl
    have hMM : mmMinLoop g (c :: cs) best = mmMinLoop g cs (min best (g c.2)) := rfl
    rw [hAB, hMM]
    by_cases hcut : min be (f c.2 al be) ≤ al
    · -- alpha cutoff after this child
      rw [if_pos hcut]
      have hva : f c.2 al be ≤ al :=
        (min_le_iff.mp hcut).resolve_left (not_le_of_lt hab)
      have hma : g c.2 ≤ al := by
        by_contra ham
        push_neg at ham
        rcases lt_or_le (g c.2) be with hlt | hge
        · rw [hc1 ham hlt] at hva
          exact absurd hva (not_le_of_lt ham)
        · exact absurd (le_trans (hc3 hge) hva) (not_le_of_lt hab)
      have hM : mmMinLoop g cs (min best (g c.2)) ≤ al :=
        le_trans (mmMinLoop_le g cs _) (le_trans (min_le_right best _) hma)
      refine ⟨fun h1 _ => absurd (lt_of_lt_of_le h1 hM) (lt_irrefl al),
        fun _ => le_trans (min_le_right best _) hva,
        fun h => absurd (le_trans h hM) (not_le_of_lt hab)⟩
    · -- no cutoff: recurse over the remaining children
      rw [if_neg hcut]
      have hbe2 : al < min be (f c.2 al be) := lt_of_not_le hcut
      rcases le_or_lt be (g c.2) with hbm | hmb
      · -- child value fails high: state only shrinks by a fail-high bound
        have hbv : be ≤ f c.2 al be := hc3 hbm
        have hbev : min be (f c.2 al be) = be := min_eq_left hbv
        have hb2 : be ≤ min best (f c.2 al be) := le_min hbb hbv
        have ih' := ih hftail (min best (f c.2 al be)) al be hab hb2
        rw [hbev]
        rw [mmMinLoop_eq_min g cs] at ih' ⊢
        have hA : be ≤ min best (g c.2) := le_min hbb hbm
        refine ⟨?_, ?_, ?_⟩
        · intro h1 h2
          have hMI : min (min best (g c.2)) (listInf g cs) = listInf g cs := by
            rcases le_total (min best (g c.2)) (listInf g cs) with h | h
            · exact absurd (lt_of_le_of_lt (le_trans hA (le_of_eq (min_eq_left h).symm)) h2)
                (lt_irrefl be)
            · exact min_eq_right h
          rw [hMI] at h1 h2 ⊢
          have hM'I : min (min best (f c.2 al be)) (listInf g cs) = listInf g cs :=
            min_eq_right (le_trans (le_of_lt h2) hb2)
          rw [← hM'I] at h1 h2 ⊢
          exact ih'.1 h1 h2
        · intro h
          have hI : listInf g cs ≤ al := by
            rcases le_total (min best (g c.2)) (listInf g cs) with h' | h'
            · rw [min_eq_left h'] at h
              exact absurd (le_trans hA h) (not_le_of_lt hab)
            · rw [min_eq_right h'] at h
              exact h
          exact ih'.2.1 (le_trans (min_le_right _ _) hI)
        · intro h
          have hI : be ≤ listInf g cs := le_trans h (min_le_right _ _)
          exact ih'.2.2 (le_min hb2 hI)
      · -- child value is inside the window (or fails low, forcing a cutoff)
        have ham : al < g c.2 := by
          by_contra h'
          push_neg at h'
          exact absurd (le_trans (min_le_right be _) (hc2 h')) hcut
        have hvm : f c.2 al be = g c.2 := hc1 ham hmb
        have hbev : min be (f c.2 al be) = g c.2 := by
          rw [hvm]; exact min_eq_right (le_of_lt hmb)
        have hbest2 : min best (f c.2 al be) = g c.2 := by
          rw [hvm]; exact min_eq_right (le_of_lt (lt_of_lt_of_le hmb hbb))
        have hbm2 : min best (g c.2) = g c.2 :=
          min_eq_right (le_of_lt (lt_of_lt_of_le hmb hbb))
        rw [hbev, hbest2, hbm2]
        have ih' := ih hftail (g c.2) al (g c.2) ham (le_refl _)
        have hMm : mmMinLoop g cs (g c.2) ≤ g c.2 := mmMinLoop_le g cs _
        refine ⟨?_, ?_, ?_⟩
        · intro h1 _
          rcases eq_or_lt_of_le hMm with h | h
          · rw [h]
            exact le_antisymm (abMinLoop_le f cs _ al _) (ih'.2.2 (le_of_eq h.symm))
          · exact ih'.1 h1 h
        · exact fun h => ih'.2.1 h
        · exact fun h => absurd (lt_of_le_of_lt (le_trans h hMm) hmb) (lt_irrefl be)

/-- Fail-soft bounds for `Agent._alpha_beta` against unpruned minimax: the
pruned search returns the exact minimax value whenever it lies strictly
inside the `(alpha, beta)` window, and a conservative bound otherwise. -/
theorem alphaBeta_bounds :
    ∀ (d : ℕ) (t : GT) (maximizing : Bool) (al be : Score), al < be →
      ((al < minimax d t maximizing → minimax d t maximizing < be →
          alphaBeta d t al be maximizing = minimax d t maximizing) ∧
       (minimax d t maximizing ≤ al → alphaBeta d t al be maximizing ≤ al) ∧
       (be ≤ minimax d t maximizing → be ≤ alphaBeta d t al be maximizing)) := by
  intro d
  induction d with
  | zero =>
    intro t maximizing al be _
    exact ⟨fun _ _ => rfl, fun h => h, fun h => h⟩
  | succ d ih =>
    intro t maximizing al be hab
    by_cases hov : t.over = true
    · have h1 : alphaBeta (d + 1) t al be maximizing = evaluatePosition t := by
        simp [alphaBeta, hov]
      have h2 : minimax (d + 1) t maximizing = evaluatePosition t := by
        simp [minimax, hov]
      rw [h1, h2]
      exact ⟨fun _ _ => rfl, fun h => h, fun h => h⟩
    · by_cases hemp : t.children.isEmpty = true
      · have h1 : alphaBeta (d + 1) t al be maximizing = noMovesValue t maximizing := by
          simp [alphaBeta, hov, hemp]
        have h2 : minimax (d + 1) t maximizing = noMovesValue t maximizing := by
          simp [minimax, hov, hemp]
        rw [h1, h2]
        exact ⟨fun _ _ => rfl, fun h => h, fun h => h⟩
      · cases maximizing with
        | true =>
          have h1 : alphaBeta (d + 1) t al be true =
              abMaxLoop (fun c a b => alphaBeta d c a b false)
                (orderMoves t.children) ⊥ al be := by
            simp [alphaBeta, hov, hemp]
          have h2 : minimax (d + 1) t true =
              mmMaxLoop (fun c => minimax d c false) (orderMoves t.children) ⊥ := by
            simp [minimax, hov, hemp]
          rw [h1, h2]
          exact abMaxLoop_spec _ _ (orderMoves t.children)
            (fun c _ a b h => ih c.2 false a b h) ⊥ al be hab bot_le
        | false =>
          have h1 : alphaBeta (d + 1) t al be false =
              abMinLoop (fun c a b => alphaBeta d c a b true)
                (orderMoves t.children) ⊤ al be := by
            simp [alphaBeta, hov, hemp]
          have h2 : minimax (d + 1) t false =
              mmMinLoop (fun c => minimax d c true) (orderMoves t.children) ⊤ := by
            simp [minimax, hov, hemp]
          rw [h1, h2]
          exact abMinLoop_spec _ _ (orderMoves t.children)
            (fun c _ a b h => ih c.2 true a b h) ⊤ al be hab le_top

/-- The White root loop with the invariant `alpha = best_value` and
`beta = ⊤` agrees with the unpruned root loop. -/
theorem rootLoopAB_white (f : GT → Score → Score → Bool → Score) (g : GT → Bool → Score) :
    ∀ (cs : List (MoveInfo × GT)),
      (∀ c ∈ cs, ∀ (al be : Score) (fl : Bool), al < be →
        ((al < g c.2 fl → g c.2 fl < be → f c.2 al be fl = g c.2 fl) ∧
         (g c.2 fl ≤ al → f c.2 al be fl ≤ al) ∧
         (be ≤ g c.2 fl → be ≤ f c.2 al be fl))) →
      ∀ (bm : Option ℕ) (bv : Score),
        rootLoopAB true f cs bm bv bv ⊤ = rootLoopMM true g cs bm bv := by
  intro cs
  induction cs with
  | nil => intro _ bm bv; rfl
  | cons c cs ih =>
    intro hf bm bv
    have hftail := fun c' hc' => hf c' (List.mem_cons_of_mem c hc')
    have hAB : rootLoopAB true f (c :: cs) bm bv bv ⊤ =
        if bv < f c.2 bv ⊤ (!c.2.turn) then
          rootLoopAB true f cs (some c.1.id) (f c.2 bv ⊤ (!c.2.turn))
            (max bv (f c.2 bv ⊤ (!c.2.turn))) ⊤
        else rootLoopAB true f cs bm bv (max bv (f c.2 bv ⊤ (!c.2.turn))) ⊤ := rfl
    have hMM : rootLoopMM true g (c :: cs) bm bv =
        if bv < g c.2 (!c.2.turn) then rootLoopMM true g cs (some c.1.id) (g c.2 (!c.2.turn))
        else rootLoopMM true g cs bm bv := rfl
    rw [hAB, hMM]
    rcases eq_or_lt_of_le (le_top : bv ≤ ⊤) with htop | htop
    · -- alpha already saturated: no update is possible on either side
      have hnf : ¬ bv < f c.2 bv ⊤ (!c.2.turn) := by rw [htop]; exact not_top_lt
      have hng : ¬ bv < g c.2 (!c.2.turn) := by rw [htop]; exact not_top_lt
      have hmax : max bv (f c.2 bv ⊤ (!c.2.turn)) = bv := by
        rw [htop]; exact max_eq_left le_top
      rw [if_neg hnf, if_neg hng, hmax]
      exact ih hftail bm bv
    · have hprops := hf c (List.mem_cons_self c cs) bv ⊤ (!c.2.turn) htop
      rcases le_or_lt (g c.2 (!c.2.turn)) bv with hm | hm
      · -- child value does not beat the current best: no update either side
        have hv : f c.2 bv ⊤ (!c.2.turn) ≤ bv := hprops.2.1 hm
        rw [if_neg (not_lt_of_le hv), if_neg (not_lt_of_le hm), max_eq_left hv]
        exact ih hftail bm bv
      · -- child value beats the current best: both sides record it exactly
        have hvm : f c.2 bv ⊤ (!c.2.turn) = g c.2 (!c.2.turn) := by
          rcases eq_or_lt_of_le (le_top : g c.2 (!c.2.turn) ≤ ⊤) with hg | hg
          · exact (le_antisymm le_top (hprops.2.2 (le_of_eq hg.symm))).trans hg.symm
          · exact hprops.1 hm hg
        rw [hvm, if_pos hm, if_pos hm, max_eq_right (le_of_lt hm)]
        exact ih hftail (some c.1.id) (g c.2 (!c.2.turn))

/-- The Black root loop with the invariant `beta = best_value` and
`alpha = ⊥` agrees with the unpruned root loop. -/
theorem rootLoopAB_black (f : GT → Score → Score → Bool → Score) (g : GT → Bool → Score) :
    ∀ (cs : List (MoveInfo × GT)),
      (∀ c ∈ cs, ∀ (al be : Score) (fl : Bool), al < be →
        ((al < g c.2 fl → g c.2 fl < be → f c.2 al be fl = g c.2 fl) ∧
         (g c.2 fl ≤ al → f c.2 al be fl ≤ al) ∧
         (be ≤ g c.2 fl → be ≤ f c.2 al be fl))) →
      ∀ (bm : Option ℕ) (bv : Score),
        rootLoopAB false f cs bm bv ⊥ bv = rootLoopMM false g cs bm bv := by
  intro cs
  induction cs with
  | nil => intro _ bm bv; rfl
  | cons c cs ih =>
    intro hf bm bv
    have hftail := fun c' hc' => hf c' (List.mem_cons_of_mem c hc')
    have hAB : rootLoopAB false f (c :: cs) bm bv ⊥ bv =
        if f c.2 ⊥ bv (!c.2.turn) < bv then
          rootLoopAB false f cs (some c.1.id) (f c.2 ⊥ bv (!c.2.turn))
            ⊥ (min bv (f c.2 ⊥ bv (!c.2.turn)))
        else rootLoopAB false f cs bm bv ⊥ (min bv (f c.2 ⊥ bv (!c.2.turn))) := rfl
    have hMM : rootLoopMM false g (c :: cs) bm bv =
        if g c.2 (!c.2.turn) < bv then rootLoopMM false g cs (some c.1.id) (g c.2 (!c.2.turn))
        else rootLoopMM false g cs bm bv := rfl
    rw [hAB, hMM]
    rcases eq_or_lt_of_le (bot_le : ⊥ ≤ bv) with hbot | hbot
    · -- beta already saturated: no update is possible on either side
      have hnf : ¬ f c.2 ⊥ bv (!c.2.turn) < bv := by rw [← hbot]; exact not_lt_bot
      have hng : ¬ g c.2 (!c.2.turn) < bv := by rw [← hbot]; exact not_lt_bot
      have hmin : min bv (f c.2 ⊥ bv (!c.2.turn)) = bv := by
        rw [← hbot]; exact min_eq_left bot_le
      rw [if_neg hnf, if_neg hng, hmin]
      exact ih hftail bm bv
    · have hprops := hf c (List.mem_cons_self c cs) ⊥ bv (!c.2.turn) hbot
      rcases le_or_lt bv (g c.2 (!c.2.turn)) with hm | hm
      · -- child value does not beat the current best: no update either side
        have hv : bv ≤ f c.2 ⊥ bv (!c.2.turn) := hprops.2.2 hm
        rw [if_neg (not_lt_of_le hv), if_neg (not_lt_of_le hm), min_eq_left hv]
        exact ih hftail bm bv
      · -- child value beats the current best: both sides record it exactly
        have hvm : f c.2 ⊥ bv (!c.2.turn) = g c.2 (!c.2.turn) := by
          rcases eq_or_lt_of_le (bot_le : (⊥ : Score) ≤ g c.2 (!c.2.turn)) with hg | hg
          · exact (le_antisymm (hg ▸ hprops.2.1 (le_of_eq hg.symm)) bot_le).trans hg
          · exact hprops.1 hg hm
        rw [hvm, if_pos hm, if_pos hm, min_eq_right (le_of_lt hm)]
        exact ih hftail (some c.1.id) (g c.2 (!c.2.turn))

theorem searchRoot_eq (t : GT) (d : ℕ) : searchRootAB t d = searchRootMM t d := by
  have hf : ∀ c ∈ orderMoves t.children, ∀ (a b : Score) (fl : Bool), a < b →
      ((a < minimax (d - 1) c.2 fl → minimax (d - 1) c.2 fl < b →
          alphaBeta (d - 1) c.2 a b fl = minimax (d - 1) c.2 fl) ∧
       (minimax (d - 1) c.2 fl ≤ a → alphaBeta (d - 1) c.2 a b fl ≤ a) ∧
       (b ≤ minimax (d - 1) c.2 fl → b ≤ alphaBeta (d - 1) c.2 a b fl)) :=
    fun c _ a b fl h => alphaBeta_bounds (d - 1) c.2 fl a b h
  unfold searchRootAB searchRootMM
  cases ht : t.turn with
  | false =>
    show rootLoopAB false _ (orderMoves t.children) none ⊤ ⊥ ⊤ =
      rootLoopMM false _ (orderMoves t.children) none ⊤
    exact rootLoopAB_black _ _ _ hf none ⊤
  | true =>
    show rootLoopAB true _ (orderMoves t.children) none ⊥ ⊥ ⊤ =
      rootLoopMM true _ (orderMoves t.children) none ⊥
    exact rootLoopAB_white _ _ _ hf none ⊥

theorem getMove_eq_mm (t : GT) (d : ℕ) : getMove t d = getMoveMM t d := by
  unfold getMove getMoveMM
  rw [searchRoot_eq]

/-- C1: on any position that is not game-over, at any depth ≥ 1, the move
returned by `Agent.get_move` and the `(best_move, best_value)` pair its
root loop computes are identical to those of the unpruned full minimax
search of the same depth over the same move ordering: alpha-beta pruning
never changes the returned move or score. -/
theorem alphaBeta_equals_unpruned_minimax (t : GT) (d : ℕ)
    (_hover : t.over = false) (_hd : 1 ≤ d) :
    getMove t d = getMoveMM t d ∧ searchRootAB t d = searchRootMM t d :=
  ⟨getMove_eq_mm t d, searchRoot_eq t d⟩

/-- A quiet move with identifier `i`. -/
def wMove (i : ℕ) : MoveInfo := ⟨i, false, none, false, none⟩

/-- A leaf position, White to move, neural evaluation `n`. -/
def wLeaf (n : ℤ) : GT := .node true false false false false false n []

/-- A Black-to-move position with one move to a leaf of evaluation `n`. -/
def wChild (n : ℤ) : GT := .node false false false false false false n [(wMove 10, wLeaf n)]

/-- A White-to-move root with two quiet moves. -/
def wRoot : GT :=
  .node true false false false false false 0 [(wMove 1, wChild 3), (wMove 2, wChild 5)]

theorem alphaBeta_equals_unpruned_minimax_witness :
    wRoot.over = false ∧ 1 ≤ 2 ∧
      (getMove wRoot 2 = getMoveMM wRoot 2 ∧ searchRootAB wRoot 2 = searchRootMM wRoot 2) :=
  ⟨rfl, by decide, alphaBeta_equals_unpruned_minimax wRoot 2 rfl (by decide)⟩

/-! ### The branch mode used at each searched node (C2)

`Agent.get_move` launches each child search with `maximizing = not
board.turn` read *after* `board.push(move)`, i.e. the negation of the
child's side to move; `_alpha_beta` then alternates the flag.  The
instrumented search below records, for every internal node it branches on,
the pair `(side to move there, maximizing flag used there)`. -/

/-- Trace-recording maximizing loop (same control flow as `abMaxLoop`). -/
def abTrMaxLoop (f : GT → Score → Score → List (Bool × Bool) × Score) :
    List (MoveInfo × GT) → Score → Score → Score → List (Bool × Bool) →
      List (Bool × Bool) × Score
  | [], best, _, _, tr => (tr, best)
  | c :: cs, best, al, be, tr =>
    if be ≤ max al (f c.2 al be).2 then (tr ++ (f c.2 al be).1, max best (f c.2 al be).2)
    else abTrMaxLoop f cs (max best (f c.2 al be).2) (max al (f c.2 al be).2) be
      (tr ++ (f c.2 al be).1)

/-- Trace-recording minimizing loop (same control flow as `abMinLoop`). -/
def abTrMinLoop (f : GT → Score → Score → List (Bool × Bool) × Score) :
    List (MoveInfo × GT) → Score → Score → Score → List (Bool × Bool) →
      List (Bool × Bool) × Score
  | [], best, _, _, tr => (tr, best)
  | c :: cs, best, al, be, tr =>
    if min be (f c.2 al be).2 ≤ al then (tr ++ (f c.2 al be).1, min best (f c.2 al be).2)
    else abTrMinLoop f cs (min best (f c.2 al be).2) al (min be (f c.2 al be).2)
      (tr ++ (f c.2 al be).1)

/-- `Agent._alpha_beta`, recording `(node side to move, maximizing flag)`
for every node at which it branches over children. -/
def alphaBetaTr : ℕ → GT → Score → Score → Bool → List (Bool × Bool) × Score
  | 0, t, _, _, _ => ([], evaluatePosition t)
  | d + 1, t, al, be, maximizing =>
    if t.over then ([], evaluatePosition t)
    else if t.children.isEmpty then ([], noMovesValue t maximizing)
    else if maximizing then
      abTrMaxLoop (fun c a b => alphaBetaTr d c a b false) (orderMoves t.children)
        ⊥ al be [(t.turn, true)]
    else
      abTrMinLoop (fun c a b => alphaBetaTr d c a b true) (orderMoves t.children)
        ⊤ al be [(t.turn, false)]

/-- The root loop of `Agent.get_move`, collecting the traces of the child
searches; the flag handed to each child is `not board.turn` after the push,
and `alpha` (White) or `beta` (Black) evolves exactly as in the source. -/
def rootLoopTr (turn : Bool) (f : GT → Score → Score → Bool → List (Bool × Bool) × Score) :
    List (MoveInfo × GT) → Score → Score → List (Bool × Bool) → List (Bool × Bool)
  | [], _, _, tr => tr
  | c :: cs, al, be, tr =>
    if turn then
      rootLoopTr turn f cs (max al (f c.2 al be (!c.2.turn)).2) be
        (tr ++ (f c.2 al be (!c.2.turn)).1)
    else
      rootLoopTr turn f cs al (min be (f c.2 al be (!c.2.turn)).2)
        (tr ++ (f c.2 al be (!c.2.turn)).1)

/-- The `(side to move, maximizing flag)` pairs of all internal nodes
visited by a `get_move` search of depth `d`. -/
def searchTrace (t : GT) (d : ℕ) : List (Bool × Bool) :=
  rootLoopTr t.turn (fun c a b fl => alphaBetaTr (d - 1) c a b fl)
    (orderMoves t.children) ⊥ ⊤ []

/-- C2: the branch mode does NOT always match the side to move.  On the
concrete White-to-move root `wRoot` at depth 2, both searched internal
nodes have Black to move (`turn = false`) yet are searched with
`maximizing = true`: `get_move` passes `not board.turn` *after* pushing the
move, which equals the root's colour, not the child's. -/
theorem branch_mode_contradicts_side_to_move :
    wRoot.turn = true ∧ searchTrace wRoot 2 = [(false, true), (false, true)] := by
  constructor
  · rfl
  · decide

/-! ### Depth defaulting in `Agent.get_move` (C10) -/

/-- `depth = depth or self.search_depth`: Python's `or` treats both `None`
and `0` as falsy, so an explicit depth of 0 falls back to the default. -/
def resolveDepth (searchDepth : ℕ) (d : Option ℕ) : ℕ :=
  match d with
  | none => searchDepth
  | some n => if n = 0 then searchDepth else n

/-- `Agent.get_move` including the depth-defaulting step at its top. -/
def agentGetMove (searchDepth : ℕ) (t : GT) (d : Option ℕ) : Except Unit (Option ℕ) :=
  getMove t (resolveDepth searchDepth d)

/-- C10: calling `get_move` with an explicit depth of 0 neither searches to
depth 0 nor raises: the falsy depth is replaced by the agent's configured
`search_depth`, so the call behaves exactly like a call with no depth. -/
theorem depth_zero_uses_default_depth (sd : ℕ) (t : GT) :
    agentGetMove sd t (some 0) = agentGetMove sd t none ∧
      resolveDepth sd (some 0) = sd ∧
      agentGetMove sd t (some 0) = getMove t sd :=
  ⟨rfl, rfl, rfl⟩

/-! ### The evaluator adapter (C3) -/

/-- C3: `_evaluate_position` returns the extreme score against the side to
move on checkmate (so `⊥` when White is to move and mated, `⊤` when Black
is), exactly 0 on stalemate or insufficient material, and otherwise exactly
the model's scalar output with no clamping and no sign flip. -/
theorem evaluate_terminal_and_model (t : GT) :
    (t.mate = true → evaluatePosition t = (if t.turn then ⊥ else ⊤)) ∧
    (t.mate = false → (t.stalemate = true ∨ t.insufficient = true) →
      evaluatePosition t = finS 0) ∧
    (t.mate = false → t.stalemate = false → t.insufficient = false →
      evaluatePosition t = finS t.nn) := by
  refine ⟨fun h => by simp [evaluatePosition, h], fun h h' => ?_,
    fun h h' h'' => by simp [evaluatePosition, h, h', h'']⟩
  rcases h' with h' | h' <;> simp [evaluatePosition, h, h']

/-- White to move and checkmated. -/
def mateNode : GT := .node true false true false false false 7 []

/-- A stalemate position. -/
def staleNode : GT := .node false false false true false false 7 []

/-- An ordinary position with model output 7. -/
def quietNode : GT := .node true false false false false false 7 []

theorem evaluate_terminal_and_model_witness :
    evaluatePosition mateNode = (if mateNode.turn then ⊥ else ⊤) ∧
      evaluatePosition staleNode = finS 0 ∧
      evaluatePosition quietNode = finS quietNode.nn :=
  ⟨(evaluate_terminal_and_model mateNode).1 rfl,
   (evaluate_terminal_and_model staleNode).2.1 rfl (Or.inl rfl),
   (evaluate_terminal_and_model quietNode).2.2 rfl rfl rfl⟩

/-! ### Move ordering (C4) -/

/-- The priority formula exactly as the specification words it: the capture
bonus is the material value of the *captured piece*.  Modelled from the
spec, for comparison with the code's `move_priority`, which instead reads
the piece on the destination square. -/
def specPriority (m : MoveInfo) (child : GT) : ℤ :=
  (if m.isCapture then
    (match m.captured with
      | some pt => pieceValue pt * 10
      | none => 0)
  else 0)
  + (if child.check then 50 else 0)
  + (if m.promotion then 100 else 0)

/-- An en-passant capture: `board.is_capture(move)` is true, but the
captured pawn is not on `move.to_square`, so `board.piece_at(move.to_square)`
is `None`. -/
def epMove : MoveInfo := ⟨0, true, none, false, some .pawn⟩

/-- A position giving no check after the move. -/
def quietPos : GT := .node true false false false false false 0 []

/-- C4 counterexample: for an en-passant capture the code's priority is 0,
not the claimed captured-piece value × 10 = 10. -/
theorem movePriority_en_passant_cex :
    movePriorityScore epMove quietPos = 0 ∧ specPriority epMove quietPos = 10 ∧
      movePriorityScore epMove quietPos ≠ specPriority epMove quietPos := by
  refine ⟨rfl, rfl, ?_⟩
  decide

/-- A queen capture (id 2). -/
def qCapMove : MoveInfo := ⟨2, true, some .queen, false, some .queen⟩

/-- A quiet move (id 1) that will give check. -/
def checkMove : MoveInfo := ⟨1, false, none, false, none⟩

/-- A quiet move (id 3). -/
def quietMove : MoveInfo := ⟨3, false, none, false, none⟩

/-- A child position in which the moving side gives check. -/
def checkPos : GT := .node false false false false false true 0 []

/-- C4 (amended): the priority is (value of the piece on the destination
square × 10 for a capture — 0 for en-passant captures, whose destination
square is empty) + 50 for check + 100 for promotion; whenever the captured
piece actually sits on the destination square this agrees with the
spec formula.  Moves are returned in descending priority, as a permutation
of the input, with ties kept in original order, and a queen capture is
ordered before a merely checking move. -/
theorem orderMoves_priority_descending_stable :
    (∀ m c, m.pieceAtTo = m.captured → movePriorityScore m c = specPriority m c) ∧
    (∀ m c, m.isCapture = true → m.pieceAtTo = none →
      movePriorityScore m c =
        (if c.check then 50 else 0) + (if m.promotion then 100 else 0)) ∧
    (∀ cs : List (MoveInfo × GT), (orderMoves cs).Pairwise
      (fun a b => movePriorityScore b.1 b.2 ≤ movePriorityScore a.1 a.2)) ∧
    (∀ cs : List (MoveInfo × GT), (orderMoves cs).Perm cs) ∧
    (∀ (a b : MoveInfo × GT) (cs : List (MoveInfo × GT)),
      movePriorityScore a.1 a.2 = movePriorityScore b.1 b.2 →
      [a, b].Sublist cs → [a, b].Sublist (orderMoves cs)) ∧
    ((orderMoves [(checkMove, checkPos), (qCapMove, quietPos), (quietMove, quietPos)]).map
      (fun c => c.1.id) = [2, 1, 3]) := by
  refine ⟨?_, ?_, ?_, ?_, ?_, ?_⟩
  · intro m c h
    unfold movePriorityScore specPriority
    rw [h]
  · intro m c h h'
    unfold movePriorityScore
    rw [h, h']
    simp
  · intro cs
    have hs := List.sorted_insertionSort moveLE cs
    exact hs.imp (fun h => neg_le_neg_iff.mp h)
  · intro cs
    exact List.perm_insertionSort moveLE cs
  · intro a b cs hpri hsub
    have hkey : moveKey a = moveKey b := by
      show -(movePriorityScore a.1 a.2) = -(movePriorityScore b.1 b.2)
      rw [hpri]
    exact List.pair_sublist_insertionSort (le_of_eq hkey) hsub
  · decide

theorem orderMoves_priority_descending_stable_witness :
    movePriorityScore qCapMove quietPos = specPriority qCapMove quietPos ∧
      movePriorityScore epMove quietPos =
        (if quietPos.check then 50 else 0) + (if epMove.promotion then 100 else 0) ∧
      [(checkMove, quietPos), (quietMove, quietPos)].Sublist
        (orderMoves [(qCapMove, quietPos), (checkMove, quietPos), (quietMove, quietPos)]) :=
  ⟨orderMoves_priority_descending_stable.1 qCapMove quietPos rfl,
   orderMoves_priority_descending_stable.2.1 epMove quietPos rfl rfl,
   orderMoves_priority_descending_stable.2.2.2.2.1 (checkMove, quietPos) (quietMove, quietPos)
     [(qCapMove, quietPos), (checkMove, quietPos), (quietMove, quietPos)] (by decide)
     (List.Sublist.cons _ (List.Sublist.refl _))⟩

/-! ### The undo invariant (C9)

The board object is modelled by its move stack (the sequence of pushed,
not-yet-popped moves): `board.push(move)` appends the move's identifier,
`board.pop()` removes the last entry.  The search below threads that stack
through every push/pop the source performs — including the speculative
push/pop pair `move_priority` performs per candidate move, and the pops
that precede an early pruning break — and C9 states that the stack always
comes back unchanged. -/

/-- The net stack effect of `_order_moves`: `sorted` evaluates
`move_priority` once per candidate in input order, and each evaluation
pushes the move and pops it again. -/
def orderStack (st : List ℕ) (cs : List (MoveInfo × GT)) : List ℕ :=
  cs.foldl (fun s c => (s ++ [c.1.id]).dropLast) st

/-- Stack-threaded maximizing loop: push, recurse, pop, then maybe break. -/
def abStMaxLoop (f : GT → Score → Score → List ℕ → Score × List ℕ) :
    List (MoveInfo × GT) → Score → Score → Score → List ℕ → Score × List ℕ
  | [], best, _, _, st => (best, st)
  | c :: cs, best, al, be, st =>
    if be ≤ max al (f c.2 al be (st ++ [c.1.id])).1 then
      (max best (f c.2 al be (st ++ [c.1.id])).1, (f c.2 al be (st ++ [c.1.id])).2.dropLast)
    else
      abStMaxLoop f cs (max best (f c.2 al be (st ++ [c.1.id])).1)
        (max al (f c.2 al be (st ++ [c.1.id])).1) be
        (f c.2 al be (st ++ [c.1.id])).2.dropLast

/-- Stack-threaded minimizing loop. -/
def abStMinLoop (f : GT → Score → Score → List ℕ → Score × List ℕ) :
    List (MoveInfo × GT) → Score → Score → Score → List ℕ → Score × List ℕ
  | [], best, _, _, st => (best, st)
  | c :: cs, best, al, be, st =>
    if min be (f c.2 al be (st ++ [c.1.id])).1 ≤ al then
      (min best (f c.2 al be (st ++ [c.1.id])).1, (f c.2 al be (st ++ [c.1.id])).2.dropLast)
    else
      abStMinLoop f cs (min best (f c.2 al be (st ++ [c.1.id])).1) al
        (min be (f c.2 al be (st ++ [c.1.id])).1)
        (f c.2 al be (st ++ [c.1.id])).2.dropLast

/-- `Agent._alpha_beta` threading the board's move stack through every
push/pop it performs (its own and those of `_order_moves`). -/
def alphaBetaSt : ℕ → GT → Score → Score → Bool → List ℕ → Score × List ℕ
  | 0, t, _, _, _, st => (evaluatePosition t, st)
  | d + 1, t, al, be, maximizing, st =>
    if t.over then (evaluatePosition t, st)
    else if t.children.isEmpty then (noMovesValue t maximizing, st)
    else if maximizing then
      abStMaxLoop (fun c a b s => alphaBetaSt d c a b false s) (orderMoves t.children)
        ⊥ al be (orderStack st t.children)
    else
      abStMinLoop (fun c a b s => alphaBetaSt d c a b true s) (orderMoves t.children)
        ⊤ al be (orderStack st t.children)

/-- The stack-threaded root loop of `Agent.get_move` (never breaks). -/
def rootLoopSt (turn : Bool) (f : GT → Score → Score → Bool → List ℕ → Score × List ℕ) :
    List (MoveInfo × GT) → Score → Score → List ℕ → List ℕ
  | [], _, _, st => st
  | c :: cs, al, be, st =>
    if turn then
      rootLoopSt turn f cs (max al (f c.2 al be (!c.2.turn) (st ++ [c.1.id])).1) be
        ((f c.2 al be (!c.2.turn) (st ++ [c.1.id])).2.dropLast)
    else
      rootLoopSt turn f cs al (min be (f c.2 al be (!c.2.turn) (st ++ [c.1.id])).1)
        ((f c.2 al be (!c.2.turn) (st ++ [c.1.id])).2.dropLast)

/-- The board's move stack after a full `Agent.get_move` call returns
(error paths and the single-move shortcut push nothing; the search path
first runs `_order_moves` over the legal moves, then the root loop). -/
def getMoveStack (t : GT) (d : ℕ) (st : List ℕ) : List ℕ :=
  if t.over then st
  else
    match t.children with
    | [] => st
    | [_] => st
    | _ :: _ :: _ =>
      rootLoopSt t.turn (fun c a b fl s => alphaBetaSt (d - 1) c a b fl s)
        (orderMoves t.children) ⊥ ⊤ (orderStack st t.children)

theorem orderStack_id (cs : List (MoveInfo × GT)) :
    ∀ st : List ℕ, orderStack st cs = st := by
  induction cs with
  | nil => intro st; rfl
  | cons c cs ih =>
    intro st
    show orderStack ((st ++ [c.1.id]).dropLast) cs = st
    rw [List.dropLast_concat, ih st]

theorem abStMaxLoop_stack (f : GT → Score → Score → List ℕ → Score × List ℕ)
    (hf : ∀ c a b s, (f c a b s).2 = s) :
    ∀ (cs : List (MoveInfo × GT)) (best al be : Score) (st : List ℕ),
      (abStMaxLoop f cs best al be st).2 = st := by
  intro cs
  induction cs with
  | nil => intro best al be st; rfl
  | cons c cs ih =>
    intro best al be st
    show (if _ ≤ _ then (_, (f c.2 al be (st ++ [c.1.id])).2.dropLast)
      else abStMaxLoop f cs _ _ be ((f c.2 al be (st ++ [c.1.id])).2.dropLast)).2 = st
    rw [hf c.2 al be (st ++ [c.1.id]), List.dropLast_concat]
    split
    · rfl
    · exact ih _ _ be st

theorem abStMinLoop_stack (f : GT → Score → Score → List ℕ → Score × List ℕ)
    (hf : ∀ c a b s, (f c a b s).2 = s) :
    ∀ (cs : List (MoveInfo × GT)) (best al be : Score) (st : List ℕ),
      (abStMinLoop f cs best al be st).2 = st := by
  intro cs
  induction cs with
  | nil => intro best al be st; rfl
  | cons c cs ih =>
    intro best al be st
    show (if _ ≤ _ then (_, (f c.2 al be (st ++ [c.1.id])).2.dropLast)
      else abStMinLoop f cs _ al _ ((f c.2 al be (st ++ [c.1.id])).2.dropLast)).2 = st
    rw [hf c.2 al be (st ++ [c.1.id]), List.dropLast_concat]
    split
    · rfl
    · exact ih _ al _ st

theorem alphaBetaSt_stack :
    ∀ (d : ℕ) (t : GT) (al be : Score) (maximizing : Bool) (st : List ℕ),
      (alphaBetaSt d t al be maximizing st).2 = st := by
  intro d
  induction d with
  | zero => intro t al be maximizing st; rfl
  | succ d ih =>
    intro t al be maximizing st
    show (if t.over then (evaluatePosition t, st)
      else if t.children.isEmpty then (noMovesValue t maximizing, st)
      else if maximizing then
        abStMaxLoop _ (orderMoves t.children) ⊥ al be (orderStack st t.children)
      else
        abStMinLoop _ (orderMoves t.children) ⊤ al be (orderStack st t.children)).2 = st
    split
    · rfl
    · split
      · rfl
      · rw [orderStack_id t.children st]
        split
        · exact abStMaxLoop_stack _ (fun c a b s => ih c a b false s) _ ⊥ al be st
        · exact abStMinLoop_stack _ (fun c a b s => ih c a b true s) _ ⊤ al be st

theorem rootLoopSt_stack (f : GT → Score → Score → Bool → List ℕ → Score × List ℕ)
    (hf : ∀ c a b fl s, (f c a b fl s).2 = s) (turn : Bool) :
    ∀ (cs : List (MoveInfo × GT)) (al be : Score) (st : List ℕ),
      rootLoopSt turn f cs al be st = st := by
  intro cs
  induction cs with
  | nil => intro al be st; rfl
  | cons c cs ih =>
    intro al be st
    show (if turn then rootLoopSt turn f cs _ be ((f c.2 al be (!c.2.turn) (st ++ [c.1.id])).2.dropLast)
      else rootLoopSt turn f cs al _ ((f c.2 al be (!c.2.turn) (st ++ [c.1.id])).2.dropLast)) = st
    rw [hf c.2 al be (!c.2.turn) (st ++ [c.1.id]), List.dropLast_concat]
    split
    · exact ih _ be st
    · exact ih al _ st

/-- C9: every `get_move` call that returns leaves the board exactly as it
found it — the move stack after the call equals the move stack before it,
for every position, depth and starting stack (covering the speculative
pushes of move ordering and the pops before pruning breaks). -/
theorem getMove_restores_board (t : GT) (d : ℕ) (st : List ℕ) :
    getMoveStack t d st = st := by
  unfold getMoveStack
  split
  · rfl
  · split
    · rfl
    · rfl
    · rw [orderStack_id t.children st]
      exact rootLoopSt_stack _ (fun c a b fl s => alphaBetaSt_stack (d - 1) c a b fl s)
        t.turn (orderMoves t.children) ⊥ ⊤ st

/-! ### The model cache (`src/ML/model_cache.py`)

`ModelCache.cache` is an `OrderedDict`, modelled as an association list in
recency order: the head is the least recently used entry, the tail end the
most recently used.  Model identifiers and loaded model handles are
abstracted as naturals; `_load_from_database` is abstracted as an oracle
`db : ℕ → Option ℕ` (it catches its own exceptions and returns `None` on
any failure). -/

/-- One cache line: (model identifier, loaded model handle). -/
abbrev CacheList := List (ℕ × ℕ)

/-- `model_id in self.cache`. -/
def containsKey (c : CacheList) (k : ℕ) : Bool :=
  c.any (fun e => e.1 == k)

/-- `self.cache[model_id]`. -/
def lookupKey (c : CacheList) (k : ℕ) : Option ℕ :=
  (c.find? (fun e => e.1 == k)).map (fun e => e.2)

/-- Removal of key `k` (the effect of taking an entry out of the dict). -/
def eraseKey (c : CacheList) (k : ℕ) : CacheList :=
  c.filter (fun e => e.1 != k)

/-- `self.cache.move_to_end(model_id)`: the entry keeps its value and
becomes most recently used. -/
def moveToEnd (c : CacheList) (k : ℕ) : CacheList :=
  match lookupKey c k with
  | some v => eraseKey c k ++ [(k, v)]
  | none => c

/-- `ModelCache` state: the configured capacity and the ordered cache. -/
structure ModelCache where
  capacity : ℤ
  cache : CacheList
deriving DecidableEq, Repr

/-- `ModelCache.__init__(capacity)`: the capacity is stored unvalidated and
the cache starts empty. -/
def ModelCache.init (capacity : ℤ) : ModelCache :=
  ⟨capacity, []⟩

/-- `ModelCache.put(model_id, model)`: refresh an existing key's value and
recency; otherwise append and, if the size now exceeds the capacity, evict
one entry from the least-recently-used end (`popitem(last=False)`). -/
def ModelCache.put (m : ModelCache) (k v : ℕ) : ModelCache :=
  if containsKey m.cache k then
    ⟨m.capacity, eraseKey m.cache k ++ [(k, v)]⟩
  else
    if ((m.cache ++ [(k, v)]).length : ℤ) > m.capacity then
      ⟨m.capacity, (m.cache ++ [(k, v)]).tail⟩
    else
      ⟨m.capacity, m.cache ++ [(k, v)]⟩

/-- `ModelCache.get(model_id)`: a hit refreshes recency and returns the
cached model; a miss loads from the database and `put`s on success. -/
def ModelCache.get (m : ModelCache) (db : ℕ → Option ℕ) (k : ℕ) :
    Option ℕ × ModelCache :=
  if containsKey m.cache k then
    (lookupKey m.cache k, ⟨m.capacity, moveToEnd m.cache k⟩)
  else
    match db k with
    | some v => (some v, m.put k v)
    | none => (none, m)

/-- `ModelCache.contains(model_id)`. -/
def ModelCache.containsId (m : ModelCache) (k : ℕ) : Bool :=
  containsKey m.cache k

/-- `ModelCache.preload(model_ids)`: `get` each id not already cached. -/
def ModelCache.preload (m : ModelCache) (db : ℕ → Option ℕ) (ids : List ℕ) : ModelCache :=
  ids.foldl (fun acc i => if acc.containsId i then acc else (acc.get db i).2) m

/-- A `get`-or-`put` step, for stating invariants over operation sequences. -/
inductive CacheOp where
  | get (k : ℕ)
  | put (k : ℕ) (v : ℕ)
deriving DecidableEq, Repr

/-- Run a sequence of cache operations against a fixed database oracle. -/
def runOps (db : ℕ → Option ℕ) : ModelCache → List CacheOp → ModelCache
  | m, [] => m
  | m, .get k :: ops => runOps db (m.get db k).2 ops
  | m, .put k v :: ops => runOps db (m.put k v) ops

theorem length_eraseKey_lt (c : CacheList) (k : ℕ) (h : containsKey c k = true) :
    (eraseKey c k).length < c.length := by
  induction c with
  | nil => simp [containsKey] at h
  | cons e c ih =>
    by_cases he : e.1 = k
    · have hb : (e.1 != k) = false := by simp [he]
      have herase : (eraseKey (e :: c) k) = eraseKey c k := by
        show List.filter _ (e :: c) = _
        rw [List.filter_cons, hb]
        simp only [Bool.false_eq_true, if_false]
        rfl
      rw [herase]
      exact Nat.lt_succ_of_le (List.length_filter_le _ c)
    · have hb : (e.1 != k) = true := by simp [he]
      have hc : containsKey c k = true := by
        rcases List.any_eq_true.mp h with ⟨x, hx, hxk⟩
        rcases List.mem_cons.mp hx with rfl | hx
        · exact absurd (beq_iff_eq.mp hxk) he
        · exact List.any_eq_true.mpr ⟨x, hx, hxk⟩
      have herase : (eraseKey (e :: c) k) = e :: eraseKey c k := by
        show List.filter _ (e :: c) = _
        rw [List.filter_cons, hb]
        simp only [if_true]
        rfl
      rw [herase]
      exact Nat.succ_lt_succ (ih hc)

theorem put_length_le (m : ModelCache) (k v : ℕ)
    (h : (m.cache.length : ℤ) ≤ m.capacity) :
    (((m.put k v).cache.length : ℤ)) ≤ m.capacity := by
  unfold ModelCache.put
  by_cases hc : containsKey m.cache k = true
  · rw [if_pos hc]
    show (((eraseKey m.cache k ++ [(k, v)]).length : ℕ) : ℤ) ≤ m.capacity
    rw [List.length_append]
    have := length_eraseKey_lt m.cache k hc
    have hle : ((eraseKey m.cache k).length + 1 : ℕ) ≤ m.cache.length := this
    calc (((eraseKey m.cache k).length + [(k,v)].length : ℕ) : ℤ)
        = (((eraseKey m.cache k).length + 1 : ℕ) : ℤ) := by norm_num
      _ ≤ (m.cache.length : ℤ) := by exact_mod_cast hle
      _ ≤ m.capacity := h
  · rw [if_neg hc]
    by_cases hover : ((m.cache ++ [(k, v)]).length : ℤ) > m.capacity
    · rw [if_pos hover]
      show (((m.cache ++ [(k, v)]).tail.length : ℕ) : ℤ) ≤ m.capacity
      rw [List.length_tail, List.length_append]
      simp only [List.length_singleton]
      push_cast [Nat.add_sub_cancel]
      exact h
    · rw [if_neg hover]
      exact le_of_not_lt hover

theorem get_length_le (m : ModelCache) (db : ℕ → Option ℕ) (k : ℕ)
    (h : (m.cache.length : ℤ) ≤ m.capacity) :
    ((((m.get db k).2).cache.length : ℤ)) ≤ m.capacity := by
  unfold ModelCache.get
  by_cases hc : containsKey m.cache k = true
  · rw [if_pos hc]
    show ((moveToEnd m.cache k).length : ℤ) ≤ m.capacity
    unfold moveToEnd
    cases hl : lookupKey m.cache k with
    | none => exact h
    | some v =>
      show (((eraseKey m.cache k ++ [(k, v)]).length : ℕ) : ℤ) ≤ m.capacity
      rw [List.length_append]
      have hle : ((eraseKey m.cache k).length + 1 : ℕ) ≤ m.cache.length :=
        length_eraseKey_lt m.cache k hc
      calc (((eraseKey m.cache k).length + [(k,v)].length : ℕ) : ℤ)
          = (((eraseKey m.cache k).length + 1 : ℕ) : ℤ) := by norm_num
        _ ≤ (m.cache.length : ℤ) := by exact_mod_cast hle
        _ ≤ m.capacity := h
  · rw [if_neg hc]
    cases db k with
    | some v => exact put_length_le m k v h
    | none => exact h

theorem put_preserves_capacity (m : ModelCache) (k v : ℕ) :
    (m.put k v).capacity = m.capacity := by
  unfold ModelCache.put
  split
  · rfl
  · split <;> rfl

theorem get_preserves_capacity (m : ModelCache) (db : ℕ → Option ℕ) (k : ℕ) :
    ((m.get db k).2).capacity = m.capacity := by
  unfold ModelCache.get
  split
  · rfl
  · split
    · exact put_preserves_capacity m _ _
    · rfl

theorem runOps_preserves_capacity (db : ℕ → Option ℕ) :
    ∀ (ops : List CacheOp) (m : ModelCache),
      (runOps db m ops).capacity = m.capacity := by
  intro ops
  induction ops with
  | nil => intro m; rfl
  | cons op ops ih =>
    intro m
    cases op with
    | get k =>
      show (runOps db (m.get db k).2 ops).capacity = _
      rw [ih, get_preserves_capacity]
    | put k v =>
      show (runOps db (m.put k v) ops).capacity = _
      rw [ih, put_preserves_capacity]

theorem runOps_invariant (db : ℕ → Option ℕ) :
    ∀ (ops : List CacheOp) (m : ModelCache),
      (m.cache.length : ℤ) ≤ m.capacity →
      ((runOps db m ops).cache.length : ℤ) ≤ (runOps db m ops).capacity := by
  intro ops
  induction ops with
  | nil => intro m h; exact h
  | cons op ops ih =>
    intro m h
    cases op with
    | get k =>
      show ((runOps db (m.get db k).2 ops).cache.length : ℤ) ≤ _
      exact ih (m.get db k).2 (by rw [get_preserves_capacity]; exact get_length_le m db k h)
    | put k v =>
      show ((runOps db (m.put k v) ops).cache.length : ℤ) ≤ _
      exact ih (m.put k v) (by rw [put_preserves_capacity]; exact put_length_le m k v h)

/-- C5: (a) starting from a freshly constructed cache of positive capacity,
any sequence of `get`/`put` operations leaves at most `capacity` entries;
(b) a `put` of a new key when the cache is exactly full evicts precisely the
single least-recently-used entry (the head of the recency order) and
appends the new one as most recent; (c) a `put` of an existing key rewrites
its value and moves it to the most-recent end without changing the number
of entries. -/
theorem cache_capacity_lru (db : ℕ → Option ℕ) (cap : ℤ) (ops : List CacheOp)
    (hcap : 1 ≤ cap) :
    (((runOps db (ModelCache.init cap) ops).cache.length : ℤ) ≤ cap) ∧
    (∀ (m : ModelCache) (k v : ℕ), containsKey m.cache k = false →
      (m.cache.length : ℤ) = m.capacity → 1 ≤ m.capacity →
      (m.put k v).cache = m.cache.tail ++ [(k, v)]) ∧
    (∀ (m : ModelCache) (k v : ℕ), containsKey m.cache k = true →
      (m.put k v).cache = eraseKey m.cache k ++ [(k, v)] ∧
        ((m.put k v).cache.length : ℤ) ≤ (m.cache.length : ℤ)) := by
  refine ⟨?_, ?_, ?_⟩
  · have h0 : (((ModelCache.init cap).cache.length : ℕ) : ℤ) ≤ (ModelCache.init cap).capacity := by
      show ((0 : ℕ) : ℤ) ≤ cap
      exact le_trans (by norm_num) hcap
    have := runOps_invariant db ops (ModelCache.init cap) h0
    rw [runOps_preserves_capacity] at this
    exact this
  · intro m k v hk hfull hcap'
    unfold ModelCache.put
    rw [if_neg (by rw [hk]; exact Bool.false_ne_true)]
    have hover : ((m.cache ++ [(k, v)]).length : ℤ) > m.capacity := by
      rw [List.length_append]
      push_cast
      rw [← hfull]
      norm_num
    rw [if_pos hover]
    show (m.cache ++ [(k, v)]).tail = m.cache.tail ++ [(k, v)]
    cases hc : m.cache with
    | nil =>
      rw [hc] at hfull
      rw [← hfull] at hcap'
      norm_num at hcap'
    | cons e c => rfl
  · intro m k v hk
    unfold ModelCache.put
    rw [if_pos hk]
    refine ⟨rfl, ?_⟩
    show (((eraseKey m.cache k ++ [(k, v)]).length : ℕ) : ℤ) ≤ _
    rw [List.length_append]
    have := length_eraseKey_lt m.cache k hk
    simp only [List.length_singleton]
    exact_mod_cast this

/-- A database oracle for witnesses: every id loads. -/
def dbAll : ℕ → Option ℕ := fun n => some (n + 100)

/-- A database oracle whose loads all fail. -/
def dbNone : ℕ → Option ℕ := fun _ => none

/-- A cache of capacity 2 that is full; entry `(1, 11)` is least recent. -/
def mFull : ModelCache := ⟨2, [(1, 11), (2, 22)]⟩

theorem cache_capacity_lru_witness :
    (((runOps dbAll (ModelCache.init 2) [.put 1 11, .put 2 22, .get 1, .put 3 33]).cache.length : ℤ) ≤ 2) ∧
    ((mFull.put 3 33).cache = mFull.cache.tail ++ [(3, 33)]) ∧
    ((mFull.put 1 99).cache = eraseKey mFull.cache 1 ++ [(1, 99)] ∧
      (((mFull.put 1 99).cache.length : ℤ) ≤ (mFull.cache.length : ℤ))) :=
  ⟨(cache_capacity_lru dbAll 2 [.put 1 11, .put 2 22, .get 1, .put 3 33] (by decide)).1,
   (cache_capacity_lru dbAll 2 [] (by decide)).2.1 mFull 3 33 (by decide) (by decide) (by decide),
   (cache_capacity_lru dbAll 2 [] (by decide)).2.2 mFull 1 99 (by decide)⟩

/-! ### `preload` versus repeated `get` (C6) -/

/-- `get(id)` on each id in order — the reference behaviour the
specification equates `preload` with (modelled from the spec's words). -/
def getSeq (m : ModelCache) (db : ℕ → Option ℕ) (ids : List ℕ) : ModelCache :=
  ids.foldl (fun acc i => (acc.get db i).2) m

/-- C6 counterexample: on a cache already holding id 1 (as least recently
used), `preload [1]` skips the id and leaves the recency order unchanged,
while `get 1` refreshes id 1 to most recent — the two final states differ. -/
theorem preload_differs_from_get_each_cex :
    (mFull.preload dbNone [1]).cache = [(1, 11), (2, 22)] ∧
    (getSeq mFull dbNone [1]).cache = [(2, 22), (1, 11)] ∧
    mFull.preload dbNone [1] ≠ getSeq mFull dbNone [1] := by
  refine ⟨rfl, rfl, ?_⟩
  decide

theorem containsKey_append_false (c₁ c₂ : CacheList) (j : ℕ)
    (h₁ : containsKey c₁ j = false) (h₂ : containsKey c₂ j = false) :
    containsKey (c₁ ++ c₂) j = false := by
  show (c₁ ++ c₂).any _ = false
  rw [List.any_append]
  rw [containsKey] at h₁ h₂
  rw [h₁, h₂]
  rfl

theorem containsKey_eraseKey_false (c : CacheList) (k j : ℕ)
    (h : containsKey c j = false) : containsKey (eraseKey c k) j = false := by
  apply Bool.eq_false_iff.mpr
  intro htrue
  rcases List.any_eq_true.mp htrue with ⟨x, hx, hxj⟩
  have : containsKey c j = true :=
    List.any_eq_true.mpr ⟨x, List.mem_of_mem_filter hx, hxj⟩
  rw [h] at this
  exact Bool.false_ne_true this

theorem containsKey_tail_false (c : CacheList) (j : ℕ)
    (h : containsKey c j = false) : containsKey c.tail j = false := by
  apply Bool.eq_false_iff.mpr
  intro htrue
  rcases List.any_eq_true.mp htrue with ⟨x, hx, hxj⟩
  have : containsKey c j = true :=
    List.any_eq_true.mpr ⟨x, (List.tail_sublist c).subset hx, hxj⟩
  rw [h] at this
  exact Bool.false_ne_true this

theorem containsKey_singleton_false (i v j : ℕ) (hij : j ≠ i) :
    containsKey [(i, v)] j = false := by
  simp [containsKey, beq_iff_eq, Ne.symm hij]

theorem containsKey_get_false (m : ModelCache) (db : ℕ → Option ℕ) (i j : ℕ)
    (hj : containsKey m.cache j = false) (hij : j ≠ i) :
    containsKey (((m.get db i).2).cache) j = false := by
  unfold ModelCache.get
  by_cases hc : containsKey m.cache i = true
  · rw [if_pos hc]
    show containsKey (moveToEnd m.cache i) j = false
    unfold moveToEnd
    cases hl : lookupKey m.cache i with
    | none => exact hj
    | some v =>
      exact containsKey_append_false _ _ j (containsKey_eraseKey_false _ i j hj)
        (containsKey_singleton_false i v j hij)
  · rw [if_neg hc]
    cases db i with
    | some v =>
      show containsKey ((m.put i v).cache) j = false
      unfold ModelCache.put
      rw [if_neg hc]
      have happ : containsKey (m.cache ++ [(i, v)]) j = false :=
        containsKey_append_false _ _ j hj (containsKey_singleton_false i v j hij)
      split
      · exact containsKey_tail_false _ j happ
      · exact happ
    | none => exact hj

/-- C6 (amended): `preload(ids)` is equivalent to `get` on each id in order
*when no id is already cached and the ids are distinct* (in particular,
individual load failures are skipped without aborting the batch, exactly as
the `get` sequence skips them); but an id already in the cache is skipped
entirely, so — unlike a `get` — it does not refresh that entry's recency. -/
theorem preload_is_get_each_on_fresh_ids :
    (∀ (db : ℕ → Option ℕ) (ids : List ℕ) (m : ModelCache),
      (∀ i ∈ ids, containsKey m.cache i = false) → ids.Nodup →
      m.preload db ids = getSeq m db ids) ∧
    (∀ (m : ModelCache) (db : ℕ → Option ℕ) (i : ℕ),
      containsKey m.cache i = true → m.preload db [i] = m) := by
  constructor
  · intro db ids
    induction ids with
    | nil => intro m _ _; rfl
    | cons i ids ih =>
      intro m hfresh hnd
      have hi : containsKey m.cache i = false := hfresh i (List.mem_cons_self i ids)
      have hstep : (if m.containsId i then m else (m.get db i).2) = (m.get db i).2 := by
        rw [ModelCache.containsId, hi]
        rfl
      show List.foldl _ (if m.containsId i then m else (m.get db i).2) ids = _
      rw [hstep]
      have hfresh' : ∀ j ∈ ids, containsKey ((m.get db i).2).cache j = false := by
        intro j hj
        have hji : j ≠ i := by
          rintro rfl
          exact (List.nodup_cons.mp hnd).1 hj
        exact containsKey_get_false m db i j (hfresh j (List.mem_cons_of_mem i hj)) hji
      exact ih (m.get db i).2 hfresh' (List.nodup_cons.mp hnd).2
  · intro m db i h
    show (if m.containsId i then m else (m.get db i).2) = m
    rw [ModelCache.containsId, h]
    rfl

theorem preload_is_get_each_on_fresh_ids_witness :
    (ModelCache.init 2).preload dbAll [5, 6] = getSeq (ModelCache.init 2) dbAll [5, 6] ∧
      mFull.preload dbAll [1] = mFull :=
  ⟨preload_is_get_each_on_fresh_ids.1 dbAll [5, 6] (ModelCache.init 2)
      (by decide) (by decide),
   preload_is_get_each_on_fresh_ids.2 mFull dbAll 1 (by decide)⟩

/-! ### Cache construction does not validate its capacity (C8) -/

/-- C8 counterexample: constructing a `ModelCache` with capacity 0 (not a
positive integer) succeeds — there is no validation and no error path in
`__init__` — and `get`/`put` on the resulting cache also return normally
(a `put` inserts and then immediately evicts the sole entry). -/
theorem init_no_capacity_validation_cex :
    ModelCache.init 0 = ⟨0, []⟩ ∧
    ((ModelCache.init 0).put 5 7).cache = [] ∧
    (ModelCache.init 0).get dbNone 3 = (none, ModelCache.init 0) := by
  refine ⟨rfl, ?_, ?_⟩ <;> decide

/-- C8 (amended): construction stores any capacity, including
non-positive ones, without raising; the misconfiguration also never turns
into a runtime error — with capacity ≤ 0 a `put` of a new key into an empty
cache simply inserts and immediately evicts it, returning normally. -/
theorem init_accepts_any_capacity (cap : ℤ) (k v : ℕ) (hcap : cap ≤ 0) :
    (ModelCache.init cap).capacity = cap ∧
    (ModelCache.init cap).cache = [] ∧
    ((ModelCache.init cap).put k v).cache = [] := by
  refine ⟨rfl, rfl, ?_⟩
  show (ModelCache.put ⟨cap, []⟩ k v).cache = []
  unfold ModelCache.put
  rw [if_neg (by simp [containsKey])]
  rw [if_pos ?_]
  · rfl
  · show ((([] : CacheList) ++ [(k, v)]).length : ℤ) > cap
    exact lt_of_le_of_lt hcap (by norm_num)

theorem init_accepts_any_capacity_witness :
    (-3 : ℤ) ≤ 0 ∧
      ((ModelCache.init (-3)).capacity = -3 ∧
        (ModelCache.init (-3)).cache = [] ∧
        ((ModelCache.init (-3)).put 1 2).cache = []) :=
  ⟨by decide, init_accepts_any_capacity (-3) 1 2 (by decide)⟩

/-! ### The state codec (`src/ML/state_encoder.py`)

`encode_board` turns a position into a 14×8×8 tensor of 0.0/1.0 floats
(channels 0–5 white pieces, 6–11 black pieces, 12 castling rights, 13 turn
and en-passant); `decode_board` reads it back with `> 0.5` thresholds.  The
tensor is modelled as a function `channel → rank → file → ℚ` (the code only
ever writes the exact values 0.0 and 1.0, which float arithmetic represents
exactly); a square index `sq` (A1 = 0) has `rank = sq / 8`, `file = sq % 8`. -/

/-- A chess piece: colour (`true` = White, as `chess.WHITE`) and type. -/
structure Piece where
  white : Bool
  ptype : PieceType
deriving DecidableEq, Repr

/-- A chess position as seen by the codec.  Half-move and full-move
counters are not part of the encoded representation. -/
structure Position where
  pieceAt : ℕ → Option Piece
  turn : Bool
  castleWK : Bool
  castleWQ : Bool
  castleBK : Bool
  castleBQ : Bool
  ep : Option ℕ

/-- `PIECE_TO_CHANNEL`. -/
def pieceChannelIdx : PieceType → ℕ
  | .pawn => 0
  | .knight => 1
  | .bishop => 2
  | .rook => 3
  | .queen => 4
  | .king => 5

/-- `CHANNEL_TO_PIECE` (inverse of `PIECE_TO_CHANNEL`). -/
def channelToPiece : ℕ → PieceType
  | 0 => .pawn
  | 1 => .knight
  | 2 => .bishop
  | 3 => .rook
  | 4 => .queen
  | _ => .king

/-- The channel a piece is written to: type index, +6 for Black. -/
def pieceChannel (pc : Piece) : ℕ :=
  pieceChannelIdx pc.ptype + (if pc.white then 0 else 6)

/-- `StateEncoder.encode_board` as the function giving the tensor cell
`(channel, rank, file)`.  Piece channels hold 1 exactly on the square of a
matching piece; channel 12 holds the four castling rights at `(0,0)`,
`(0,1)`, `(7,0)`, `(7,1)`; channel 13 holds the turn flag at `(0,0)` —
overwritten with 1 if the en-passant square is A1, as the source writes the
en-passant 1 after the turn flag — and 1 at the en-passant square. -/
def encodeBoard (p : Position) (ch r f : ℕ) : ℚ :=
  if ch < 12 then
    (match p.pieceAt (8 * r + f) with
      | some pc => if pieceChannel pc = ch then 1 else 0
      | none => 0)
  else if ch = 12 then
    (if r = 0 ∧ f = 0 then (if p.castleWK then 1 else 0)
     else if r = 0 ∧ f = 1 then (if p.castleWQ then 1 else 0)
     else if r = 7 ∧ f = 0 then (if p.castleBK then 1 else 0)
     else if r = 7 ∧ f = 1 then (if p.castleBQ then 1 else 0)
     else 0)
  else if ch = 13 then
    (if r = 0 ∧ f = 0 then
      (if p.turn then 1 else if p.ep = some 0 then 1 else 0)
     else if p.ep = some (8 * r + f) then 1 else 0)
  else 0

/-- The `for channel in range(...)` scan of `decode_board`: the first
channel of the given list whose cell exceeds 0.5. -/
def findChannel (g : ℕ → ℚ) : List ℕ → Option ℕ
  | [] => none
  | ch :: chs => if 1 / 2 < g ch then some ch else findChannel g chs

/-- The piece `decode_board` leaves on a square: the white scan (channels
0–5) places a white piece, then the black scan (channels 6–11) overwrites
it with a black piece if any black channel is set. -/
def decodePieceAt (T : ℕ → ℕ → ℕ → ℚ) (sq : ℕ) : Option Piece :=
  match findChannel (fun ch => T ch (sq / 8) (sq % 8)) [6, 7, 8, 9, 10, 11] with
  | some ch => some ⟨false, channelToPiece (ch - 6)⟩
  | none =>
    match findChannel (fun ch => T ch (sq / 8) (sq % 8)) [0, 1, 2, 3, 4, 5] with
    | some ch => some ⟨true, channelToPiece ch⟩
    | none => none

/-- The en-passant scan of `decode_board`: the first square in board order,
skipping A1 (the turn-indicator cell), whose channel-13 cell exceeds 0.5. -/
def decodeEp (T : ℕ → ℕ → ℕ → ℚ) : Option ℕ :=
  (List.range 64).find? (fun sq => sq != 0 && decide (1 / 2 < T 13 (sq / 8) (sq % 8)))

/-- `StateEncoder.decode_board`, read back into a `Position`. -/
def decodeBoard (T : ℕ → ℕ → ℕ → ℚ) : Position where
  pieceAt := fun sq => decodePieceAt T sq
  turn := decide (1 / 2 < T 13 0 0)
  castleWK := decide (1 / 2 < T 12 0 0)
  castleWQ := decide (1 / 2 < T 12 0 1)
  castleBK := decide (1 / 2 < T 12 7 0)
  castleBQ := decide (1 / 2 < T 12 7 1)
  ep := decodeEp T

theorem decode_channels (o : Option Piece) (g : ℕ → ℚ)
    (hg : ∀ ch, ch < 12 → g ch =
      (match o with
        | some pc => if pieceChannel pc = ch then 1 else 0
        | none => 0)) :
    (match findChannel g [6, 7, 8, 9, 10, 11] with
      | some ch => some (Piece.mk false (channelToPiece (ch - 6)))
      | none =>
        match findChannel g [0, 1, 2, 3, 4, 5] with
        | some ch => some (Piece.mk true (channelToPiece ch))
        | none => none) = o := by
  cases o with
  | none =>
    norm_num [findChannel, hg]
  | some pc =>
    obtain ⟨w, pt⟩ := pc
    cases w <;> cases pt <;>
      norm_num [findChannel, hg, pieceChannel, pieceChannelIdx, channelToPiece]

theorem decode_piece (p : Position) (sq : ℕ) :
    decodePieceAt (encodeBoard p) sq = p.pieceAt sq := by
  have hid : 8 * (sq / 8) + sq % 8 = sq := Nat.div_add_mod sq 8
  apply decode_channels (p.pieceAt sq) (fun ch => encodeBoard p ch (sq / 8) (sq % 8))
  intro ch hch
  show encodeBoard p ch (sq / 8) (sq % 8) = _
  unfold encodeBoard
  rw [if_pos hch, hid]

theorem find?_range_eq_some (q : ℕ → Bool) (e : ℕ) :
    ∀ n : ℕ, e < n → (∀ j, j < n → (q j = true ↔ j = e)) →
      (List.range n).find? q = some e := by
  intro n
  induction n with
  | zero => intro he; exact absurd he (Nat.not_lt_zero e)
  | succ n ih =>
    intro he hq
    rw [List.range_succ, List.find?_append]
    rcases Nat.lt_succ_iff_lt_or_eq.mp he with h | rfl
    · rw [ih h (fun j hj => hq j (Nat.lt_succ_of_lt hj))]
      rfl
    · have hnone : (List.range e).find? q = none :=
        List.find?_eq_none.mpr (fun x hx hqt =>
          absurd ((hq x (Nat.lt_succ_of_lt (List.mem_range.mp hx))).mp hqt)
            (Nat.ne_of_lt (List.mem_range.mp hx)))
      rw [hnone]
      have hqe : q e = true := (hq e (Nat.lt_succ_self e)).mpr rfl
      show Option.or none (List.find? q [e]) = some e
      simp [List.find?, hqe]

theorem find?_range_eq_none (q : ℕ → Bool) (n : ℕ)
    (hq : ∀ j, j < n → q j = false) : (List.range n).find? q = none :=
  List.find?_eq_none.mpr (fun x hx h => by
    rw [hq x (List.mem_range.mp hx)] at h
    exact Bool.false_ne_true h)

/-- The channel-13 cell away from `(0,0)` holds 1 exactly on the
en-passant square. -/
theorem encode_13_off_origin (p : Position) (j : ℕ) (hj : j ≠ 0) :
    encodeBoard p 13 (j / 8) (j % 8) =
      (if p.ep = some j then 1 else 0) := by
  have hid : 8 * (j / 8) + j % 8 = j := Nat.div_add_mod j 8
  unfold encodeBoard
  rw [if_neg (by norm_num), if_neg (by norm_num), if_pos rfl]
  rw [if_neg ?_, hid]
  rintro ⟨h8, hm⟩
  rw [← hid, h8, hm] at hj
  exact hj rfl

theorem decode_ep_eq (p : Position)
    (hep : ∀ e, p.ep = some e → e ≠ 0 ∧ e < 64) :
    decodeEp (encodeBoard p) = p.ep := by
  cases hpe : p.ep with
  | none =>
    apply find?_range_eq_none
    intro j _
    by_cases hj0 : j = 0
    · subst hj0
      rfl
    · have hz : encodeBoard p 13 (j / 8) (j % 8) = 0 := by
        rw [encode_13_off_origin p j hj0, hpe]
        rw [if_neg (fun h => Option.noConfusion h)]
      norm_num [hz, hj0]
  | some e =>
    obtain ⟨he0, he64⟩ := hep e hpe
    apply find?_range_eq_some _ e 64 he64
    intro j _
    constructor
    · intro hqt
      rw [Bool.and_eq_true] at hqt
      obtain ⟨hj0, hgt⟩ := hqt
      have hj0' : j ≠ 0 := by
        intro h
        rw [h] at hj0
        exact Bool.false_ne_true hj0
      have hgt' : (1 : ℚ) / 2 < encodeBoard p 13 (j / 8) (j % 8) := of_decide_eq_true hgt
      rw [encode_13_off_origin p j hj0', hpe] at hgt'
      by_cases hje : e = j
      · exact hje.symm
      · rw [if_neg (fun h => hje (Option.some.inj h))] at hgt'
        norm_num at hgt'
    · rintro rfl
      have hset : encodeBoard p 13 (j / 8) (j % 8) = 1 := by
        rw [encode_13_off_origin p j he0, hpe, if_pos rfl]
      rw [Bool.and_eq_true]
      constructor
      · exact bne_iff_ne.mpr he0
      · rw [decide_eq_true_eq, hset]
        norm_num

/-- C7: decoding an encoded reachable legal position reproduces its piece
placement, side to move, castling rights and en-passant square (half-move
and full-move counters are not encoded).  Of reachability/legality only
the relevant consequence is assumed: the en-passant square, when present,
is a real board square on rank 3 or 6, in particular not square A1. -/
theorem encode_decode_roundtrip (p : Position)
    (hep : ∀ e, p.ep = some e → e ≠ 0 ∧ e < 64) :
    (∀ sq, sq < 64 → (decodeBoard (encodeBoard p)).pieceAt sq = p.pieceAt sq) ∧
    (decodeBoard (encodeBoard p)).turn = p.turn ∧
    (decodeBoard (encodeBoard p)).castleWK = p.castleWK ∧
    (decodeBoard (encodeBoard p)).castleWQ = p.castleWQ ∧
    (decodeBoard (encodeBoard p)).castleBK = p.castleBK ∧
    (decodeBoard (encodeBoard p)).castleBQ = p.castleBQ ∧
    (decodeBoard (encodeBoard p)).ep = p.ep := by
  refine ⟨fun sq _ => decode_piece p sq, ?_, ?_, ?_, ?_, ?_, decode_ep_eq p hep⟩
  · show decide ((1 : ℚ) / 2 < encodeBoard p 13 0 0) = p.turn
    have h00 : encodeBoard p 13 0 0 =
        (if p.turn then 1 else if p.ep = some 0 then 1 else 0) := rfl
    rw [h00]
    cases ht : p.turn with
    | false =>
      rw [if_neg (fun h => Bool.false_ne_true h)]
      cases hpe : p.ep with
      | none =>
        rw [if_neg (fun h => Option.noConfusion h)]
        norm_num
      | some e =>
        rw [if_neg (fun h => (hep e hpe).1 (Option.some.inj h))]
        norm_num
    | true =>
      rw [if_pos rfl]
      norm_num
  · show decide ((1 : ℚ) / 2 < encodeBoard p 12 0 0) = p.castleWK
    have h : encodeBoard p 12 0 0 = (if p.castleWK then 1 else 0) := rfl
    rw [h]
    cases p.castleWK <;> norm_num
  · show decide ((1 : ℚ) / 2 < encodeBoard p 12 0 1) = p.castleWQ
    have h : encodeBoard p 12 0 1 = (if p.castleWQ then 1 else 0) := rfl
    rw [h]
    cases p.castleWQ <;> norm_num
  · show decide ((1 : ℚ) / 2 < encodeBoard p 12 7 0) = p.castleBK
    have h : encodeBoard p 12 7 0 = (if p.castleBK then 1 else 0) := rfl
    rw [h]
    cases p.castleBK <;> norm_num
  · show decide ((1 : ℚ) / 2 < encodeBoard p 12 7 1) = p.castleBQ
    have h : encodeBoard p 12 7 1 = (if p.castleBQ then 1 else 0) := rfl
    rw [h]
    cases p.castleBQ <;> norm_num

/-- Kings on e1/e8, Black to move, en-passant square e6 (index 44). -/
def pWitness : Position where
  pieceAt := fun sq =>
    if sq = 4 then some ⟨true, .king⟩
    else if sq = 60 then some ⟨false, .king⟩
    else if sq = 28 then some ⟨true, .pawn⟩
    else none
  turn := false
  castleWK := false
  castleWQ := false
  castleBK := false
  castleBQ := false
  ep := some 44

theorem encode_decode_roundtrip_witness :
    (decodeBoard (encodeBoard pWitness)).pieceAt 4 = pWitness.pieceAt 4 ∧
    (decodeBoard (encodeBoard pWitness)).pieceAt 60 = pWitness.pieceAt 60 ∧
    (decodeBoard (encodeBoard pWitness)).pieceAt 0 = pWitness.pieceAt 0 ∧
    (decodeBoard (encodeBoard pWitness)).turn = pWitness.turn ∧
    (decodeBoard (encodeBoard pWitness)).ep = pWitness.ep := by
  have hep : ∀ e, pWitness.ep = some e → e ≠ 0 ∧ e < 64 := by
    intro e he
    have h44 : (44 : ℕ) = e := Option.some.inj he
    rw [← h44]
    exact ⟨by decide, by decide⟩
  have h := encode_decode_roundtrip pWitness hep
  exact ⟨h.1 4 (by decide), h.1 60 (by decide), h.1 0 (by decide),
    h.2.1, h.2.2.2.2.2.2⟩

end Chesster
